import Mathlib

/-!
Shallow embedding of the LogExperiment (Loggy) os_log shims:
the command-stream encoder of `src/Loggy/Logging/os_log_shims.c`
and the byte-blob fast path of `src/Loggy/os_log_shims_private.h`.

Buffers are lists of byte values (`Nat`, every value written is `< 256`).
Machine arithmetic that can overflow is modelled with explicit `% 256`
(the `uint8_t` command-count and command-size fields).  The `uint32_t`
subtraction `LOGGY_OS_LOG_ENCODER_BUF_SIZE - ob_len` is modelled with
truncated `Nat` subtraction, which agrees with the C computation on every
state with `ob_len <= LOGGY_OS_LOG_ENCODER_BUF_SIZE`; theorems that
quantify over arbitrary encoder states carry that bound as a hypothesis,
and it is proved invariant for all states reachable from a zeroed encoder.
-/

/-! ## Constants from os_log_shims.h and os_log_shims.c -/

def LOGGY_OS_LOG_ENCODER_MAX_COMMANDS : Nat := 48

/-- `2 + (2 + 16) * LOGGY_OS_LOG_ENCODER_MAX_COMMANDS = 866`. -/
def LOGGY_OS_LOG_ENCODER_BUF_SIZE : Nat :=
  2 + (2 + 16) * LOGGY_OS_LOG_ENCODER_MAX_COMMANDS

def OSLF_HDR_FLAG_HAS_PRIVATE : Nat := 0x01
def OSLF_HDR_FLAG_HAS_NON_SCALAR : Nat := 0x02

def OSLF_CMD_TYPE_SCALAR : Nat := 0
def OSLF_CMD_TYPE_OBJECT : Nat := 4

/-! ## The encoder state -/

/-- `loggy_os_log_encoder_s`: a fixed `uint8_t ob_b[866]` buffer (modelled as a
list of byte values, length 866 for every reachable state) plus the cursor
`uint32_t ob_len`. -/
structure Encoder where
  ob_b : List Nat
  ob_len : Nat
deriving DecidableEq

/-- Overwrite `data.length` bytes of `buf` starting at `pos` (the effect of
`memcpy(buf + pos, data, size)`).  If the write would run past the end of
`buf` the result is longer than `buf`, so "the result still has the buffer's
length" certifies that the write stayed in bounds. -/
def splice (buf : List Nat) (pos : Nat) (data : List Nat) : List Nat :=
  buf.take pos ++ data ++ buf.drop (pos + data.length)

/-- The body of `encode` after the lazy header initialisation.  Field order of
`os_log_fmt_cmd_s` is `cmd_flags : 4` (low nibble), `cmd_type : 4`
(high nibble), `cmd_size : uint8_t`; `cmd_flags` is always `0`.  The command
count lives at byte 1 of the buffer, the header flags at byte 0. -/
def encodeBody (e : Encoder) (type : Nat) (data : List Nat) : Encoder :=
  let avail := LOGGY_OS_LOG_ENCODER_BUF_SIZE - e.ob_len
  let cnt := e.ob_b.getD 1 0
  if LOGGY_OS_LOG_ENCODER_MAX_COMMANDS < cnt ∨ avail < 2 + data.length then e
  else
    let tag : List Nat := [type % 16 * 16, data.length % 256]
    let b1 := splice e.ob_b e.ob_len tag
    let b2 := splice b1 (e.ob_len + 2) data
    let b3 := if type = OSLF_CMD_TYPE_OBJECT
      then splice b2 0 [b2.getD 0 0 ||| OSLF_HDR_FLAG_HAS_NON_SCALAR] else b2
    let b4 := splice b3 1 [(b3.getD 1 0 + 1) % 256]
    ⟨b4, e.ob_len + 2 + data.length⟩

/-- `encode` from os_log_shims.c: lazily zero the two header bytes and move the
cursor past them when `ob_len == 0`, then run the guarded append. -/
def encode (e : Encoder) (type : Nat) (data : List Nat) : Encoder :=
  if e.ob_len = 0 then encodeBody ⟨splice e.ob_b 0 [0, 0], 2⟩ type data
  else encodeBody e type data

/-- Little-endian byte representation: `w` bytes of the bit pattern `v`. -/
def toLE : Nat → Nat → List Nat
  | 0, _ => []
  | w + 1, v => v % 256 :: toLE w (v / 256)

/-- `loggy_os_log_encoder_add_int32`; `v` is the 32-bit pattern of the value. -/
def loggy_os_log_encoder_add_int32 (e : Encoder) (v : Nat) : Encoder :=
  encode e OSLF_CMD_TYPE_SCALAR (toLE 4 v)

/-- `loggy_os_log_encoder_add_int64`; `v` is the 64-bit pattern of the value. -/
def loggy_os_log_encoder_add_int64 (e : Encoder) (v : Nat) : Encoder :=
  encode e OSLF_CMD_TYPE_SCALAR (toLE 8 v)

/-- `loggy_os_log_encoder_add_int`; `size_t` is 8 bytes on the LP64 targets
this code builds for. -/
def loggy_os_log_encoder_add_int (e : Encoder) (v : Nat) : Encoder :=
  encode e OSLF_CMD_TYPE_SCALAR (toLE 8 v)

/-- `loggy_os_log_encoder_add_double`: first a scalar command with the 4-byte
`int` precision, then a scalar command with the 8-byte bit pattern of the
double value. -/
def loggy_os_log_encoder_add_double (e : Encoder) (vbits prec : Nat) : Encoder :=
  encode (encode e OSLF_CMD_TYPE_SCALAR (toLE 4 prec)) OSLF_CMD_TYPE_SCALAR (toLE 8 vbits)

/-- `loggy_os_log_encoder_add_object`; payload is the 8-byte pointer value. -/
def loggy_os_log_encoder_add_object (e : Encoder) (ptr : Nat) : Encoder :=
  encode e OSLF_CMD_TYPE_OBJECT (toLE 8 ptr)

/-- One call through the public append interface of the encoder. -/
inductive Op where
  | i32 (v : Nat)
  | i64 (v : Nat)
  | int (v : Nat)
  | dbl (vbits prec : Nat)
  | obj (ptr : Nat)
deriving DecidableEq

def applyOp (e : Encoder) : Op → Encoder
  | .i32 v => loggy_os_log_encoder_add_int32 e v
  | .i64 v => loggy_os_log_encoder_add_int64 e v
  | .int v => loggy_os_log_encoder_add_int e v
  | .dbl v p => loggy_os_log_encoder_add_double e v p
  | .obj p => loggy_os_log_encoder_add_object e p

/-- The stack-allocated, zero-initialised encoder a log call starts from. -/
def zeroEncoder : Encoder :=
  ⟨List.replicate LOGGY_OS_LOG_ENCODER_BUF_SIZE 0, 0⟩

/-- Run a sequence of public append calls from the zeroed encoder. -/
def runOps (ops : List Op) : Encoder :=
  ops.foldl applyOp zeroEncoder

def cntByte (e : Encoder) : Nat := e.ob_b.getD 1 0

def flagsByte (e : Encoder) : Nat := e.ob_b.getD 0 0

/-! ## Abstract command stream -/

/-- One appended command: its 4-bit type, 4-bit flags and payload bytes
(the size byte of the wire format is `payload.length % 256`). -/
structure Cmd where
  type : Nat
  flags : Nat
  payload : List Nat
deriving DecidableEq

/-- Wire format of one command: tag byte (flags in the low nibble, type in the
high nibble), size byte, then the payload. -/
def cmdBytes (c : Cmd) : List Nat :=
  (c.flags % 16 + c.type % 16 * 16) :: c.payload.length % 256 :: c.payload

def streamLen (cs : List Cmd) : Nat :=
  (cs.map fun c => 2 + c.payload.length).sum

def hasObj (cs : List Cmd) : Bool :=
  cs.any fun c => c.type == OSLF_CMD_TYPE_OBJECT

/-- Header flags byte of a buffer holding exactly the commands `cs`. -/
def hdrFlagsByte (cs : List Cmd) : Nat :=
  if hasObj cs then OSLF_HDR_FLAG_HAS_NON_SCALAR else 0

/-- The encoder state whose buffer holds the header for `cs` followed by the
wire bytes of `cs` and zero padding. -/
def mkState (cs : List Cmd) : Encoder :=
  ⟨hdrFlagsByte cs :: cs.length % 256 :: (cs.map cmdBytes).flatten ++
      List.replicate (864 - streamLen cs) 0,
    2 + streamLen cs⟩

/-- Abstract mirror of `encodeBody` on command lists: the guard is the same
test `encode` performs on a buffer holding exactly `cs`. -/
def specEncode (cs : List Cmd) (type : Nat) (data : List Nat) : List Cmd :=
  if LOGGY_OS_LOG_ENCODER_MAX_COMMANDS < cs.length ∨
      LOGGY_OS_LOG_ENCODER_BUF_SIZE - (2 + streamLen cs) < 2 + data.length then cs
  else cs ++ [⟨type, 0, data⟩]

def specApplyOp (cs : List Cmd) : Op → List Cmd
  | .i32 v => specEncode cs OSLF_CMD_TYPE_SCALAR (toLE 4 v)
  | .i64 v => specEncode cs OSLF_CMD_TYPE_SCALAR (toLE 8 v)
  | .int v => specEncode cs OSLF_CMD_TYPE_SCALAR (toLE 8 v)
  | .dbl v p =>
    specEncode (specEncode cs OSLF_CMD_TYPE_SCALAR (toLE 4 p)) OSLF_CMD_TYPE_SCALAR (toLE 8 v)
  | .obj p => specEncode cs OSLF_CMD_TYPE_OBJECT (toLE 8 p)

def specRun (ops : List Op) : List Cmd :=
  ops.foldl specApplyOp []

/-- The commands a public append call intends to emit. -/
def opCmds : Op → List Cmd
  | .i32 v => [⟨OSLF_CMD_TYPE_SCALAR, 0, toLE 4 v⟩]
  | .i64 v => [⟨OSLF_CMD_TYPE_SCALAR, 0, toLE 8 v⟩]
  | .int v => [⟨OSLF_CMD_TYPE_SCALAR, 0, toLE 8 v⟩]
  | .dbl v p => [⟨OSLF_CMD_TYPE_SCALAR, 0, toLE 4 p⟩, ⟨OSLF_CMD_TYPE_SCALAR, 0, toLE 8 v⟩]
  | .obj p => [⟨OSLF_CMD_TYPE_OBJECT, 0, toLE 8 p⟩]

def expectedCmds (ops : List Op) : List Cmd :=
  (ops.map opCmds).flatten

/-- Number of commands a sequence of public calls tries to append. -/
def totalCmds (ops : List Op) : Nat :=
  (expectedCmds ops).length

/-! ## Decoding the command stream -/

/-- Fuel-driven worker for `decodeCmds`; each step consumes one command of at
least two bytes, so any fuel of at least the stream length suffices. -/
def decodeCmdsF : Nat → List Nat → Option (List Cmd)
  | _, [] => some []
  | 0, _ => none
  | _ + 1, [_] => none
  | fuel + 1, t :: n :: rest =>
    if n ≤ rest.length then
      match decodeCmdsF fuel (rest.drop n) with
      | some cs => some (⟨t / 16, t % 16, rest.take n⟩ :: cs)
      | none => none
    else none

/-- Replay a command stream byte-by-byte: tag byte (low nibble flags, high
nibble type), size byte, `size` payload bytes, repeated to the end. -/
def decodeCmds (l : List Nat) : Option (List Cmd) :=
  decodeCmdsF l.length l

/-- Decode the command stream of an encoder: the bytes between the header and
the cursor. -/
def decodeStream (e : Encoder) : Option (List Cmd) :=
  decodeCmds ((e.ob_b.take e.ob_len).drop 2)

/-! ## The byte blob of os_log_shims_private.h -/

def OS_TRACE_BLOB_NEEDS_FREE : Nat := 0x1
def OS_TRACE_BLOB_TRUNCATED : Nat := 0x2

/-- `struct __loggy_os_log_blob_s`. -/
structure Blob where
  ob_b : List Nat
  ob_len : Nat
  ob_size : Nat
  ob_maxsize : Nat
  ob_flags : Nat
  ob_binary : Bool
deriving DecidableEq

/-- `_os_trace_blob_available`: `ob_size - !ob_binary - ob_len`. -/
def os_trace_blob_available (b : Blob) : Nat :=
  b.ob_size - (if b.ob_binary then 0 else 1) - b.ob_len

/-- Modelled from the spec: the body of `os_trace_blob_add_slow` is declared in
os_log_shims_private.h but its definition is not under src.  Per spec section
4.2 it grows the backing storage up to `maxCapacity`, marking `NEEDS_FREE`; if
the append still cannot fully fit it copies as much as fits, marks the blob
`TRUNCATED`, and returns the count actually written. -/
def os_trace_blob_add_slow (b : Blob) (data : List Nat) : Nat × Blob :=
  let reserve : Nat := if b.ob_binary then 0 else 1
  if b.ob_len + data.length + reserve ≤ b.ob_maxsize then
    let b1 : Blob :=
      { b with
        ob_b := splice b.ob_b b.ob_len data ++
          List.replicate reserve 0,
        ob_len := b.ob_len + data.length,
        ob_size := b.ob_len + data.length + reserve,
        ob_flags := b.ob_flags ||| OS_TRACE_BLOB_NEEDS_FREE }
    (data.length, b1)
  else
    let canWrite := b.ob_maxsize - reserve - b.ob_len
    let b1 : Blob :=
      { b with
        ob_b := splice b.ob_b b.ob_len (data.take canWrite) ++
          List.replicate reserve 0,
        ob_len := b.ob_len + canWrite,
        ob_size := b.ob_maxsize,
        ob_flags := b.ob_flags ||| OS_TRACE_BLOB_NEEDS_FREE ||| OS_TRACE_BLOB_TRUNCATED }
    (canWrite, b1)

/-- `os_trace_blob_add`: no-op returning 0 once `TRUNCATED`; slow path when the
bytes do not fit in the available capacity; otherwise `memcpy` at the cursor
followed by `_os_trace_blob_growlen` (advance the cursor, re-NUL-terminate a
non-binary blob, return `size`). -/
def os_trace_blob_add (b : Blob) (data : List Nat) : Nat × Blob :=
  if b.ob_flags &&& OS_TRACE_BLOB_TRUNCATED ≠ 0 then (0, b)
  else if os_trace_blob_available b < data.length then
    os_trace_blob_add_slow b data
  else
    let b1 : Blob := { b with ob_b := splice b.ob_b b.ob_len data,
                              ob_len := b.ob_len + data.length }
    let b2 : Blob := if b.ob_binary then b1
      else { b1 with ob_b := splice b1.ob_b b1.ob_len [0] }
    (data.length, b2)

/-- Run a sequence of blob appends, collecting the returned byte counts. -/
def runAdds (b : Blob) : List (List Nat) → List Nat × Blob
  | [] => ([], b)
  | d :: ds =>
    let r := os_trace_blob_add b d
    let rs := runAdds r.2 ds
    (r.1 :: rs.1, rs.2)

/-! ## Concrete states used by the counterexamples -/

/-- Forty-eight successful int32 appends: `commandCount` reaches
`LOGGY_OS_LOG_ENCODER_MAX_COMMANDS`. -/
def ops48 : List Op := List.replicate 48 (Op.i32 0)

/-- Forty-nine successful int32 appends: the guard `cnt > MAX_COMMANDS` lets
the 49th command through. -/
def ops49 : List Op := List.replicate 49 (Op.i32 0)

/-! ## Predicates used by the verification -/

/-- Reachable-state invariant of the abstract command list. -/
def EncInv (cs : List Cmd) : Prop :=
  cs.length ≤ 49 ∧ streamLen cs ≤ 864

/-- Commands whose wire encoding is decoded back exactly. -/
def goodCmd (c : Cmd) : Prop :=
  c.flags < 16 ∧ c.type < 16 ∧ c.payload.length < 256

/-- Every command a public append emits: flags 0, scalar or object type,
payload of 4 or 8 bytes. -/
def producedCmd (c : Cmd) : Prop :=
  c.flags = 0 ∧ (c.type = OSLF_CMD_TYPE_SCALAR ∨ c.type = OSLF_CMD_TYPE_OBJECT) ∧
    (c.payload.length = 4 ∨ c.payload.length = 8)

def Op.isObj : Op → Bool
  | .obj _ => true
  | _ => false


/-! # Theorems -/

/-! ## Helper lemmas -/

theorem toLE_length (w v : Nat) : (toLE w v).length = w := by
  induction w generalizing v with
  | zero => rfl
  | succ w ih => simp [toLE, ih]

theorem splice_append (a b d : List Nat) :
    splice (a ++ b) a.length d = a ++ (d ++ b.drop d.length) := by
  simp only [splice, List.take_left]
  rw [← List.drop_drop, List.drop_left]
  simp

theorem splice_zero (l : List Nat) (x : Nat) :
    splice l 0 [x] = x :: l.drop 1 := by
  simp [splice]

theorem splice_one (a x : Nat) (l : List Nat) (y : Nat) :
    splice (a :: x :: l) 1 [y] = a :: y :: l := by
  simp [splice]

theorem cmdBytes_length (c : Cmd) : (cmdBytes c).length = 2 + c.payload.length := by
  simp [cmdBytes]
  omega

theorem streamBytes_length (cs : List Cmd) :
    ((cs.map cmdBytes).flatten).length = streamLen cs := by
  induction cs with
  | nil => rfl
  | cons c cs ih =>
    simp only [List.map_cons, List.flatten_cons, List.length_append, cmdBytes_length, ih,
      streamLen, List.sum_cons, List.map_cons]

theorem streamLen_append (cs : List Cmd) (c : Cmd) :
    streamLen (cs ++ [c]) = streamLen cs + (2 + c.payload.length) := by
  simp [streamLen]

theorem cntByte_mkState (cs : List Cmd) : cntByte (mkState cs) = cs.length % 256 := by
  simp [cntByte, mkState]

theorem flagsByte_mkState (cs : List Cmd) : flagsByte (mkState cs) = hdrFlagsByte cs := by
  simp [flagsByte, mkState]

theorem hdrFlagsByte_cases (cs : List Cmd) : hdrFlagsByte cs = 0 ∨ hdrFlagsByte cs = 2 := by
  rw [hdrFlagsByte]
  split
  · right; rfl
  · left; rfl

theorem hdrFlagsByte_append (cs : List Cmd) (c : Cmd) :
    hdrFlagsByte (cs ++ [c]) =
      if c.type = OSLF_CMD_TYPE_OBJECT then hdrFlagsByte cs ||| OSLF_HDR_FLAG_HAS_NON_SCALAR
      else hdrFlagsByte cs := by
  by_cases hobj : c.type = OSLF_CMD_TYPE_OBJECT
  · have h1 : hasObj (cs ++ [c]) = true := by
      simp [hasObj, hobj]
    rw [if_pos hobj, hdrFlagsByte, h1, if_pos rfl]
    rcases hdrFlagsByte_cases cs with h | h <;> rw [h] <;> decide
  · have h1 : hasObj (cs ++ [c]) = hasObj cs := by
      simp [hasObj, hobj]
    rw [if_neg hobj, hdrFlagsByte, h1, hdrFlagsByte]

/-- Central step lemma: on a buffer holding exactly the commands `cs`,
`encodeBody` performs the abstract step `specEncode`. -/
theorem encodeBody_mkState (cs : List Cmd) (t : Nat) (d : List Nat)
    (h1 : cs.length ≤ 49) (h2 : streamLen cs ≤ 864) :
    encodeBody (mkState cs) t d = mkState (specEncode cs t d) := by
  have hlt : cs.length % 256 = cs.length := Nat.mod_eq_of_lt (by omega)
  have hg : (mkState cs).ob_b.getD 1 0 = cs.length := by
    have := cntByte_mkState cs
    rw [hlt] at this
    exact this
  by_cases hc : LOGGY_OS_LOG_ENCODER_MAX_COMMANDS < cs.length ∨
      LOGGY_OS_LOG_ENCODER_BUF_SIZE - (2 + streamLen cs) < 2 + d.length
  · rw [specEncode, if_pos hc, encodeBody]
    rw [hg, show (mkState cs).ob_len = 2 + streamLen cs from rfl, if_pos hc]
  · rw [specEncode, if_neg hc]
    push_neg at hc
    obtain ⟨hcl, hcap⟩ := hc
    simp only [LOGGY_OS_LOG_ENCODER_MAX_COMMANDS] at hcl
    simp only [LOGGY_OS_LOG_ENCODER_BUF_SIZE, LOGGY_OS_LOG_ENCODER_MAX_COMMANDS] at hcap
    have hcap' : streamLen cs + (2 + d.length) ≤ 864 := by omega
    rw [encodeBody]
    rw [hg, show (mkState cs).ob_len = 2 + streamLen cs from rfl,
      if_neg (by simp only [LOGGY_OS_LOG_ENCODER_MAX_COMMANDS, LOGGY_OS_LOG_ENCODER_BUF_SIZE]; omega)]
    show (⟨_, 2 + streamLen cs + 2 + d.length⟩ : Encoder) = _
    set c : Cmd := ⟨t, 0, d⟩ with hcdef
    have hct : c.type = t := by rw [hcdef]
    have hcp : c.payload = d := by rw [hcdef]
    set f := hdrFlagsByte cs with hf
    set J := (cs.map cmdBytes).flatten with hJdef
    have hJ : J.length = streamLen cs := streamBytes_length cs
    set Z := List.replicate (864 - streamLen cs) 0 with hZ
    set tag : List Nat := [t % 16 * 16, d.length % 256] with htag
    have hbufeq : (mkState cs).ob_b = (f :: cs.length % 256 :: J) ++ Z := by
      simp [mkState]
    have hA : (f :: cs.length % 256 :: J).length = 2 + streamLen cs := by
      simp only [List.length_cons, hJ]
      omega
    have hb1 : splice (mkState cs).ob_b (2 + streamLen cs) tag
        = (f :: cs.length % 256 :: J) ++ (tag ++ Z.drop 2) := by
      rw [hbufeq, ← hA, splice_append]
      rw [show tag.length = 2 by rw [htag]; rfl]
    have hA2 : ((f :: cs.length % 256 :: J) ++ tag).length = 2 + streamLen cs + 2 := by
      rw [htag]
      simp only [List.length_append, List.length_cons, List.length_nil, hJ]
      omega
    have hb2 : splice ((f :: cs.length % 256 :: J) ++ (tag ++ Z.drop 2)) (2 + streamLen cs + 2) d
        = f :: cs.length % 256 :: (J ++ tag ++ d ++ Z.drop (2 + d.length)) := by
      rw [show (f :: cs.length % 256 :: J) ++ (tag ++ Z.drop 2)
          = ((f :: cs.length % 256 :: J) ++ tag) ++ Z.drop 2 by simp,
        ← hA2, splice_append]
      simp only [List.drop_drop, List.cons_append, List.append_assoc]
    rw [hb1, hb2]
    set tail : List Nat := J ++ tag ++ d ++ Z.drop (2 + d.length) with htail0
    have htail : tail
        = ((cs ++ [c]).map cmdBytes).flatten ++
          List.replicate (864 - streamLen (cs ++ [c])) 0 := by
      simp only [List.map_append, List.flatten_append, List.map_cons, List.map_nil,
        List.flatten_cons, List.flatten_nil, List.append_nil]
      rw [streamLen_append, hcp, hZ] at *
      have hcb : cmdBytes c = tag ++ d := by
        rw [hcdef, htag]
        simp [cmdBytes]
      rw [htail0, hcb, List.drop_replicate]
      have hrep : 864 - streamLen cs - (2 + d.length) = 864 - (streamLen cs + (2 + d.length)) := by
        omega
      rw [hrep]
      simp only [List.append_assoc]
    have hmod : (cs.length % 256 + 1) % 256 = (cs.length + 1) % 256 := by omega
    have hcnt2 : (cs ++ [c]).length % 256 = (cs.length + 1) % 256 := by simp
    have hlen2 : 2 + streamLen (cs ++ [c]) = 2 + streamLen cs + 2 + d.length := by
      rw [streamLen_append, hcp]
      omega
    by_cases hobj : t = OSLF_CMD_TYPE_OBJECT
    · rw [if_pos hobj,
        show (f :: cs.length % 256 :: tail).getD 0 0 = f from rfl, splice_zero,
        show (f :: cs.length % 256 :: tail).drop 1 = cs.length % 256 :: tail from rfl,
        show ((f ||| OSLF_HDR_FLAG_HAS_NON_SCALAR) :: cs.length % 256 :: tail).getD 1 0
          = cs.length % 256 from rfl,
        splice_one, hmod]
      rw [mkState]
      simp only [List.cons_append]
      rw [← htail, hdrFlagsByte_append, if_pos (show c.type = OSLF_CMD_TYPE_OBJECT by rw [hct, hobj]),
        hcnt2, hlen2]
    · rw [if_neg hobj,
        show (f :: cs.length % 256 :: tail).getD 1 0 = cs.length % 256 from rfl,
        splice_one, hmod]
      rw [mkState]
      simp only [List.cons_append]
      rw [← htail, hdrFlagsByte_append, if_neg (show ¬ c.type = OSLF_CMD_TYPE_OBJECT by rw [hct]; exact hobj),
        hcnt2, hlen2]

theorem Inv_nil : EncInv [] := by constructor <;> decide

theorem specEncode_Inv (cs : List Cmd) (t : Nat) (d : List Nat) (h : EncInv cs) :
    EncInv (specEncode cs t d) := by
  obtain ⟨h1, h2⟩ := h
  rw [specEncode]
  split
  · exact ⟨h1, h2⟩
  · rename_i hc
    push_neg at hc
    obtain ⟨hcl, hcap⟩ := hc
    simp only [LOGGY_OS_LOG_ENCODER_MAX_COMMANDS, LOGGY_OS_LOG_ENCODER_BUF_SIZE] at hcl hcap
    constructor
    · simp
      omega
    · rw [streamLen_append]
      simp
      omega

theorem specApplyOp_Inv (cs : List Cmd) (op : Op) (h : EncInv cs) :
    EncInv (specApplyOp cs op) := by
  cases op <;> simp only [specApplyOp] <;>
    first
      | exact specEncode_Inv _ _ _ h
      | exact specEncode_Inv _ _ _ (specEncode_Inv _ _ _ h)

theorem encode_mkState (cs : List Cmd) (t : Nat) (d : List Nat)
    (h1 : cs.length ≤ 49) (h2 : streamLen cs ≤ 864) :
    encode (mkState cs) t d = mkState (specEncode cs t d) := by
  rw [encode, if_neg (by simp [mkState])]
  exact encodeBody_mkState cs t d h1 h2

set_option maxRecDepth 20000 in
theorem encode_zeroEncoder (t : Nat) (d : List Nat) :
    encode zeroEncoder t d = mkState (specEncode [] t d) := by
  rw [encode, if_pos (show zeroEncoder.ob_len = 0 from rfl)]
  have hz : (⟨splice zeroEncoder.ob_b 0 [0, 0], 2⟩ : Encoder) = mkState [] := by decide
  rw [hz]
  exact encodeBody_mkState [] t d (by decide) (by decide)

theorem applyOp_mkState (cs : List Cmd) (op : Op) (h : EncInv cs) :
    applyOp (mkState cs) op = mkState (specApplyOp cs op) := by
  obtain ⟨h1, h2⟩ := h
  cases op with
  | i32 v => exact encode_mkState cs _ _ h1 h2
  | i64 v => exact encode_mkState cs _ _ h1 h2
  | int v => exact encode_mkState cs _ _ h1 h2
  | obj p => exact encode_mkState cs _ _ h1 h2
  | dbl v p =>
    show encode (encode (mkState cs) _ _) _ _ = _
    rw [encode_mkState cs _ _ h1 h2]
    have hi := specEncode_Inv cs OSLF_CMD_TYPE_SCALAR (toLE 4 p) ⟨h1, h2⟩
    exact encode_mkState _ _ _ hi.1 hi.2

theorem applyOp_zeroEncoder (op : Op) :
    applyOp zeroEncoder op = mkState (specApplyOp [] op) := by
  cases op <;>
    simp only [applyOp, specApplyOp, loggy_os_log_encoder_add_int32,
      loggy_os_log_encoder_add_int64, loggy_os_log_encoder_add_int,
      loggy_os_log_encoder_add_object, loggy_os_log_encoder_add_double] <;>
    first
      | exact encode_zeroEncoder _ _
      | (rename_i v p
         rw [encode_zeroEncoder]
         have hi := specEncode_Inv [] OSLF_CMD_TYPE_SCALAR (toLE 4 p) Inv_nil
         exact encode_mkState _ _ _ hi.1 hi.2)

theorem foldl_Inv (ops : List Op) (cs : List Cmd) (h : EncInv cs) :
    EncInv (ops.foldl specApplyOp cs) := by
  induction ops generalizing cs with
  | nil => exact h
  | cons op ops ih =>
    exact ih _ (specApplyOp_Inv cs op h)

theorem foldl_corr (ops : List Op) (cs : List Cmd) (h : EncInv cs) :
    ops.foldl applyOp (mkState cs) = mkState (ops.foldl specApplyOp cs) := by
  induction ops generalizing cs with
  | nil => rfl
  | cons op ops ih =>
    simp only [List.foldl_cons]
    rw [applyOp_mkState cs op h]
    exact ih _ (specApplyOp_Inv cs op h)

/-- Main correspondence: after any nonempty sequence of public appends from the
zeroed encoder, the buffer holds exactly the abstract command list. -/
theorem run_corr (op : Op) (ops : List Op) :
    runOps (op :: ops) = mkState (specRun (op :: ops)) := by
  rw [runOps, specRun]
  simp only [List.foldl_cons]
  rw [applyOp_zeroEncoder op]
  exact foldl_corr ops _ (specApplyOp_Inv [] op Inv_nil)

theorem run_Inv (ops : List Op) : EncInv (specRun ops) :=
  foldl_Inv ops [] Inv_nil

/-! ## Decoding lemmas -/

theorem streamLen_ge (cs : List Cmd) : 2 * cs.length ≤ streamLen cs := by
  induction cs with
  | nil => simp [streamLen]
  | cons c cs ih =>
    simp only [streamLen, List.map_cons, List.sum_cons, List.length_cons] at *
    omega

theorem decodeCmdsF_bytes (cs : List Cmd) (fuel : Nat) (hf : cs.length ≤ fuel)
    (hg : ∀ c ∈ cs, goodCmd c) :
    decodeCmdsF fuel ((cs.map cmdBytes).flatten) = some cs := by
  induction cs generalizing fuel with
  | nil => cases fuel <;> rfl
  | cons c cs ih =>
    obtain ⟨n, rfl⟩ : ∃ n, fuel = n + 1 := by
      cases fuel with
      | zero => simp at hf
      | succ n => exact ⟨n, rfl⟩
    obtain ⟨hcf, hct, hcp⟩ := hg c (by simp)
    have hfl : c.flags % 16 = c.flags := Nat.mod_eq_of_lt hcf
    have hty : c.type % 16 = c.type := Nat.mod_eq_of_lt hct
    have hpl : c.payload.length % 256 = c.payload.length := Nat.mod_eq_of_lt hcp
    simp only [List.map_cons, List.flatten_cons, cmdBytes, hfl, hty, hpl, List.cons_append]
    rw [decodeCmdsF]
    rw [if_pos (by simp)]
    rw [List.drop_left' rfl, List.take_left' rfl]
    rw [ih n (by simp only [List.length_cons] at hf; omega)
      (fun x hx => hg x (List.mem_cons_of_mem c hx))]
    have hdiv : (c.flags + c.type * 16) / 16 = c.type := by omega
    have hmod2 : (c.flags + c.type * 16) % 16 = c.flags := by omega
    rw [hdiv, hmod2]

theorem decodeCmds_bytes (cs : List Cmd) (hg : ∀ c ∈ cs, goodCmd c) :
    decodeCmds ((cs.map cmdBytes).flatten) = some cs := by
  rw [decodeCmds]
  refine decodeCmdsF_bytes cs _ ?_ hg
  rw [streamBytes_length]
  have := streamLen_ge cs
  omega

theorem decodeStream_mkState (cs : List Cmd) (hg : ∀ c ∈ cs, goodCmd c) :
    decodeStream (mkState cs) = some cs := by
  rw [decodeStream]
  have hA : (hdrFlagsByte cs :: cs.length % 256 :: (cs.map cmdBytes).flatten).length
      = 2 + streamLen cs := by
    simp only [List.length_cons, streamBytes_length]
    omega
  rw [show (mkState cs).ob_b
      = (hdrFlagsByte cs :: cs.length % 256 :: (cs.map cmdBytes).flatten) ++
        List.replicate (864 - streamLen cs) 0 from rfl,
    show (mkState cs).ob_len = 2 + streamLen cs from rfl,
    List.take_left' hA]
  exact decodeCmds_bytes cs hg

/-! ## The commands the public interface produces -/

theorem producedCmd_good (c : Cmd) (h : producedCmd c) : goodCmd c := by
  obtain ⟨h1, h2, h3⟩ := h
  refine ⟨by omega, ?_, by omega⟩
  rcases h2 with h | h <;> rw [h] <;> decide

theorem opCmds_produced (op : Op) : ∀ c ∈ opCmds op, producedCmd c := by
  cases op <;> intro c hc <;>
    simp only [opCmds, List.mem_cons, List.not_mem_nil, or_false] at hc <;>
    first
      | (rcases hc with hc | hc <;> rw [hc] <;>
          exact ⟨rfl, by first | (left; rfl) | (right; rfl), by simp [toLE_length]⟩)
      | (rw [hc]
         exact ⟨rfl, by first | (left; rfl) | (right; rfl), by simp [toLE_length]⟩)

theorem specEncode_sub (cs : List Cmd) (t : Nat) (d : List Nat) :
    ∀ c ∈ specEncode cs t d, c ∈ cs ∨ c = ⟨t, 0, d⟩ := by
  intro c hc
  rw [specEncode] at hc
  split at hc
  · exact Or.inl hc
  · rcases List.mem_append.1 hc with h | h
    · exact Or.inl h
    · exact Or.inr (by simpa using h)

theorem specApplyOp_produced (cs : List Cmd) (op : Op)
    (h : ∀ c ∈ cs, producedCmd c) : ∀ c ∈ specApplyOp cs op, producedCmd c := by
  have hstep : ∀ (cs' : List Cmd) (t : Nat) (d : List Nat),
      (∀ c ∈ cs', producedCmd c) → producedCmd ⟨t, 0, d⟩ →
      ∀ c ∈ specEncode cs' t d, producedCmd c := by
    intro cs' t d hall hnew c hc
    rcases specEncode_sub cs' t d c hc with h | h
    · exact hall c h
    · rw [h]; exact hnew
  cases op with
  | i32 v => exact hstep cs _ _ h ⟨rfl, Or.inl rfl, by simp [toLE_length]⟩
  | i64 v => exact hstep cs _ _ h ⟨rfl, Or.inl rfl, by simp [toLE_length]⟩
  | int v => exact hstep cs _ _ h ⟨rfl, Or.inl rfl, by simp [toLE_length]⟩
  | obj p => exact hstep cs _ _ h ⟨rfl, Or.inr rfl, by simp [toLE_length]⟩
  | dbl v p =>
    exact hstep _ _ _ (hstep cs _ _ h ⟨rfl, Or.inl rfl, by simp [toLE_length]⟩)
      ⟨rfl, Or.inl rfl, by simp [toLE_length]⟩

theorem foldl_produced (ops : List Op) (cs : List Cmd)
    (h : ∀ c ∈ cs, producedCmd c) :
    ∀ c ∈ ops.foldl specApplyOp cs, producedCmd c := by
  induction ops generalizing cs with
  | nil => exact h
  | cons op ops ih =>
    exact ih _ (specApplyOp_produced cs op h)

theorem specRun_produced (ops : List Op) : ∀ c ∈ specRun ops, producedCmd c :=
  foldl_produced ops [] (by simp)

/-! ## When nothing is dropped -/

theorem streamLen_le (cs : List Cmd) (h : ∀ c ∈ cs, c.payload.length ≤ 8) :
    streamLen cs ≤ 10 * cs.length := by
  induction cs with
  | nil => simp [streamLen]
  | cons c cs ih =>
    have hc := h c (by simp)
    have := ih (fun x hx => h x (List.mem_cons_of_mem c hx))
    simp only [streamLen, List.map_cons, List.sum_cons, List.length_cons] at *
    omega

theorem specEncode_accepts (cs : List Cmd) (t : Nat) (d : List Nat)
    (hlen : cs.length ≤ 48) (hsl : streamLen cs ≤ 480) (hd : d.length ≤ 8) :
    specEncode cs t d = cs ++ [⟨t, 0, d⟩] := by
  rw [specEncode, if_neg]
  simp only [LOGGY_OS_LOG_ENCODER_MAX_COMMANDS, LOGGY_OS_LOG_ENCODER_BUF_SIZE, not_or]
  constructor <;> omega

theorem totalCmds_cons (op : Op) (ops : List Op) :
    totalCmds (op :: ops) = (opCmds op).length + totalCmds ops := by
  simp [totalCmds, expectedCmds]

theorem foldl_noDrop (ops : List Op) (cs : List Cmd)
    (hg : ∀ c ∈ cs, c.payload.length ≤ 8)
    (h : cs.length + totalCmds ops ≤ 49) :
    ops.foldl specApplyOp cs = cs ++ expectedCmds ops := by
  induction ops generalizing cs with
  | nil => simp [expectedCmds]
  | cons op ops ih =>
    have hsl : streamLen cs ≤ 10 * cs.length := streamLen_le cs hg
    have hstep : specApplyOp cs op = cs ++ opCmds op := by
      have hlen : cs.length ≤ 48 := by
        rw [totalCmds_cons] at h
        have : 1 ≤ (opCmds op).length := by cases op <;> simp [opCmds]
        omega
      cases op with
      | i32 v =>
        rw [specApplyOp, specEncode_accepts cs _ _ hlen (by omega) (by simp [toLE_length]), opCmds]
      | i64 v =>
        rw [specApplyOp, specEncode_accepts cs _ _ hlen (by omega) (by simp [toLE_length]), opCmds]
      | int v =>
        rw [specApplyOp, specEncode_accepts cs _ _ hlen (by omega) (by simp [toLE_length]), opCmds]
      | obj p =>
        rw [specApplyOp, specEncode_accepts cs _ _ hlen (by omega) (by simp [toLE_length]), opCmds]
      | dbl v p =>
        have h2 : totalCmds (Op.dbl v p :: ops) = 2 + totalCmds ops := by
          rw [totalCmds_cons]
          simp [opCmds]
        have hlen' : cs.length ≤ 47 := by omega
        rw [specApplyOp, specEncode_accepts cs _ _ (by omega) (by omega) (by simp [toLE_length])]
        rw [specEncode_accepts _ _ _ (by simp; omega)
          (by rw [streamLen_append]; simp [toLE_length]; omega) (by simp [toLE_length])]
        simp [opCmds]
    rw [List.foldl_cons, hstep, ih]
    · rw [show expectedCmds (op :: ops) = opCmds op ++ expectedCmds ops by
        simp [expectedCmds]]
      simp
    · intro c hc
      rcases List.mem_append.1 hc with h' | h'
      · exact hg c h'
      · have := opCmds_produced op c h'
        rcases this.2.2 with h8 | h8 <;> omega
    · rw [totalCmds_cons] at h
      simp only [List.length_append]
      omega

theorem specRun_noDrop (ops : List Op) (h : totalCmds ops ≤ 49) :
    specRun ops = expectedCmds ops := by
  rw [specRun, foldl_noDrop ops [] (by simp) (by simpa using h)]
  simp

/-! ## Reconstruction of a full run -/

theorem expectedCmds_append (ops : List Op) (op : Op) :
    expectedCmds (ops ++ [op]) = expectedCmds ops ++ opCmds op := by
  simp [expectedCmds]

theorem run_reconstruct (ops : List Op) (h : totalCmds ops ≤ 49) :
    cntByte (runOps ops) = totalCmds ops ∧
    decodeStream (runOps ops) = some (expectedCmds ops) := by
  cases ops with
  | nil =>
    constructor
    · rfl
    · rfl
  | cons op ops' =>
    rw [run_corr]
    have hnd : specRun (op :: ops') = expectedCmds (op :: ops') := specRun_noDrop _ h
    have hgood : ∀ c ∈ specRun (op :: ops'), goodCmd c :=
      fun c hc => producedCmd_good c (specRun_produced _ c hc)
    constructor
    · rw [cntByte_mkState, hnd]
      exact Nat.mod_eq_of_lt (by simp only [totalCmds] at h ⊢; omega)
    · rw [decodeStream_mkState _ (fun c hc => hgood c hc), hnd]

/-! ## Rejection once the command count exceeds the maximum -/

theorem specEncode_reject (cs : List Cmd) (t : Nat) (d : List Nat)
    (h : LOGGY_OS_LOG_ENCODER_MAX_COMMANDS < cs.length) :
    specEncode cs t d = cs := by
  rw [specEncode, if_pos (Or.inl h)]

theorem specApplyOp_reject (cs : List Cmd) (op : Op)
    (h : LOGGY_OS_LOG_ENCODER_MAX_COMMANDS < cs.length) :
    specApplyOp cs op = cs := by
  cases op <;> simp only [specApplyOp] <;>
    rw [specEncode_reject cs _ _ h] <;>
    first
      | rfl
      | rw [specEncode_reject cs _ _ h]

/-! ## Length monotonicity of the abstract run -/

theorem specEncode_len_mono (cs : List Cmd) (t : Nat) (d : List Nat) :
    cs.length ≤ (specEncode cs t d).length := by
  rw [specEncode]
  split
  · exact Nat.le_refl _
  · simp

theorem specApplyOp_len_mono (cs : List Cmd) (op : Op) :
    cs.length ≤ (specApplyOp cs op).length := by
  cases op <;> simp only [specApplyOp] <;>
    first
      | exact specEncode_len_mono _ _ _
      | exact Nat.le_trans (specEncode_len_mono _ _ _) (specEncode_len_mono _ _ _)

theorem specApplyOp_nil_one (op : Op) : 1 ≤ (specApplyOp [] op).length := by
  have h0 : ∀ t d, (d : List Nat).length ≤ 8 → specEncode [] t d = [⟨t, 0, d⟩] := by
    intro t d hd
    rw [specEncode_accepts [] t d (by decide) (by decide) hd]
    rfl
  cases op with
  | i32 v => rw [specApplyOp, h0 _ _ (by simp [toLE_length])]; simp
  | i64 v => rw [specApplyOp, h0 _ _ (by simp [toLE_length])]; simp
  | int v => rw [specApplyOp, h0 _ _ (by simp [toLE_length])]; simp
  | obj p => rw [specApplyOp, h0 _ _ (by simp [toLE_length])]; simp
  | dbl v p =>
    rw [specApplyOp, h0 _ _ (by simp [toLE_length])]
    exact Nat.le_trans (by simp) (specEncode_len_mono _ _ _)

theorem foldl_len_mono (ops : List Op) (cs : List Cmd) :
    cs.length ≤ (ops.foldl specApplyOp cs).length := by
  induction ops generalizing cs with
  | nil => exact Nat.le_refl _
  | cons op ops ih =>
    exact Nat.le_trans (specApplyOp_len_mono cs op) (ih _)

/-! ## Header flags byte chasing for object appends -/

theorem splice_getD_zero (buf : List Nat) (pos : Nat) (data : List Nat)
    (h1 : 1 ≤ pos) (h2 : 1 ≤ buf.length) :
    (splice buf pos data).getD 0 0 = buf.getD 0 0 := by
  cases buf with
  | nil => simp at h2
  | cons b rest =>
    cases pos with
    | zero => omega
    | succ n =>
      simp [splice]

theorem mkState_buf_length (cs : List Cmd) (h2 : streamLen cs ≤ 864) :
    (mkState cs).ob_b.length = LOGGY_OS_LOG_ENCODER_BUF_SIZE := by
  show ((hdrFlagsByte cs :: cs.length % 256 :: (cs.map cmdBytes).flatten) ++
      List.replicate (864 - streamLen cs) 0).length = _
  simp only [List.length_append, List.length_cons, streamBytes_length,
    List.length_replicate, LOGGY_OS_LOG_ENCODER_BUF_SIZE, LOGGY_OS_LOG_ENCODER_MAX_COMMANDS]
  omega

/-! ## Runs without object appends never set the non-scalar flag -/

theorem specApplyOp_no_obj (cs : List Cmd) (op : Op)
    (hop : op.isObj = false)
    (h : ∀ c ∈ cs, c.type ≠ OSLF_CMD_TYPE_OBJECT) :
    ∀ c ∈ specApplyOp cs op, c.type ≠ OSLF_CMD_TYPE_OBJECT := by
  have hstep : ∀ (cs' : List Cmd) (d : List Nat),
      (∀ c ∈ cs', c.type ≠ OSLF_CMD_TYPE_OBJECT) →
      ∀ c ∈ specEncode cs' OSLF_CMD_TYPE_SCALAR d, c.type ≠ OSLF_CMD_TYPE_OBJECT := by
    intro cs' d hall c hc
    rcases specEncode_sub cs' _ d c hc with h' | h'
    · exact hall c h'
    · rw [h']
      show OSLF_CMD_TYPE_SCALAR ≠ OSLF_CMD_TYPE_OBJECT
      decide
  cases op with
  | i32 v => exact hstep cs _ h
  | i64 v => exact hstep cs _ h
  | int v => exact hstep cs _ h
  | dbl v p => exact hstep _ _ (hstep cs _ h)
  | obj p => simp [Op.isObj] at hop

theorem foldl_no_obj (ops : List Op) (cs : List Cmd)
    (hops : ∀ op ∈ ops, op.isObj = false)
    (h : ∀ c ∈ cs, c.type ≠ OSLF_CMD_TYPE_OBJECT) :
    ∀ c ∈ ops.foldl specApplyOp cs, c.type ≠ OSLF_CMD_TYPE_OBJECT := by
  induction ops generalizing cs with
  | nil => exact h
  | cons op ops ih =>
    exact ih _ (fun o ho => hops o (List.mem_cons_of_mem op ho))
      (specApplyOp_no_obj cs op (hops op (by simp)) h)

theorem hdrFlagsByte_of_no_obj (cs : List Cmd)
    (h : ∀ c ∈ cs, c.type ≠ OSLF_CMD_TYPE_OBJECT) : hdrFlagsByte cs = 0 := by
  rw [hdrFlagsByte, if_neg]
  intro hany
  rw [hasObj, List.any_eq_true] at hany
  obtain ⟨c, hc, hc4⟩ := hany
  exact h c hc (by simpa using hc4)

theorem splice_length_pos (buf : List Nat) (pos : Nat) (data : List Nat)
    (h : 1 ≤ data.length) : 1 ≤ (splice buf pos data).length := by
  simp only [splice, List.length_append, List.length_take, List.length_drop]
  omega

/-- An accepted object append ORs `HAS_NON_SCALAR` into the header flags byte
and changes no other bit of it. -/
theorem encodeBody_object_flags (e : Encoder) (d : List Nat)
    (hcnt : e.ob_b.getD 1 0 ≤ LOGGY_OS_LOG_ENCODER_MAX_COMMANDS)
    (hcap : 2 + d.length ≤ LOGGY_OS_LOG_ENCODER_BUF_SIZE - e.ob_len)
    (hlen : 1 ≤ e.ob_len) (hbl : 1 ≤ e.ob_b.length) (hd : 1 ≤ d.length) :
    flagsByte (encodeBody e OSLF_CMD_TYPE_OBJECT d)
      = flagsByte e ||| OSLF_HDR_FLAG_HAS_NON_SCALAR := by
  rw [encodeBody]
  dsimp only
  rw [if_neg (by
    simp only [LOGGY_OS_LOG_ENCODER_MAX_COMMANDS, LOGGY_OS_LOG_ENCODER_BUF_SIZE, not_or] at *
    omega)]
  rw [if_pos rfl]
  simp only [flagsByte]
  rw [splice_getD_zero _ 1 _ (Nat.le_refl 1)
    (splice_length_pos _ 0 _ (by simp))]
  rw [splice_zero, List.getD_cons_zero]
  rw [splice_getD_zero _ (e.ob_len + 2) _ (by omega)
    (splice_length_pos _ _ _ (by simp))]
  rw [splice_getD_zero _ e.ob_len _ hlen hbl]

/-! ## Claim theorems -/

set_option maxRecDepth 200000 in
/-- C1 counterexample: the guard in `encode` is `hdr_cmd_cnt > MAX_COMMANDS`,
not `>=`, so after 48 appends (`commandCount = MAX_COMMANDS`) a 49th append is
still accepted: `commandCount` reaches 49 and the buffer grows from 290 to 296
bytes, refuting both that `commandCount` never exceeds `MAX_COMMANDS` and that
the 49th append leaves the buffer byte-identical. -/
theorem C1_counterexample :
    cntByte (runOps ops48) = LOGGY_OS_LOG_ENCODER_MAX_COMMANDS ∧
    runOps ops49 = applyOp (runOps ops48) (Op.i32 0) ∧
    cntByte (runOps ops49) = LOGGY_OS_LOG_ENCODER_MAX_COMMANDS + 1 ∧
    (runOps ops48).ob_len = 290 ∧ (runOps ops49).ob_len = 296 := by
  refine ⟨by decide, ?_, by decide, by decide, by decide⟩
  rw [show ops49 = ops48 ++ [Op.i32 0] by
    rw [ops48, ops49, List.replicate_succ' 48 (Op.i32 0)]]
  rw [runOps, runOps, List.foldl_append]
  rfl

/-- C1 amended: after any sequence of public appends from the zeroed encoder
the command count never exceeds `MAX_COMMANDS + 1` (49), and an append
attempted when the count already exceeds `MAX_COMMANDS` leaves the encoder
completely unchanged. -/
theorem C1_amended (ops : List Op) (op : Op) :
    cntByte (runOps ops) ≤ LOGGY_OS_LOG_ENCODER_MAX_COMMANDS + 1 ∧
    (LOGGY_OS_LOG_ENCODER_MAX_COMMANDS < cntByte (runOps ops) →
      applyOp (runOps ops) op = runOps ops) := by
  cases ops with
  | nil =>
    have h0 : cntByte (runOps []) = 0 := rfl
    rw [h0]
    exact ⟨by decide, fun h => absurd h (by decide)⟩
  | cons o os =>
    rw [run_corr]
    obtain ⟨hI1, hI2⟩ := run_Inv (o :: os)
    rw [cntByte_mkState, Nat.mod_eq_of_lt (by omega)]
    constructor
    · simp only [LOGGY_OS_LOG_ENCODER_MAX_COMMANDS]
      omega
    · intro hlt
      rw [applyOp_mkState _ _ ⟨hI1, hI2⟩, specApplyOp_reject _ _ hlt]

set_option maxRecDepth 200000 in
/-- C1 amended witness: after 49 appends the count is at the cap of 49 and a
further append is a no-op. -/
theorem C1_amended_witness :
    cntByte (runOps ops49) ≤ LOGGY_OS_LOG_ENCODER_MAX_COMMANDS + 1 ∧
    applyOp (runOps ops49) (Op.i32 0) = runOps ops49 :=
  ⟨(C1_amended ops49 (Op.i32 0)).1, (C1_amended ops49 (Op.i32 0)).2 (by decide)⟩

/-- C2: for any sequence of public appends totalling at most `MAX_COMMANDS`
commands, the header's command count equals the number of appended commands,
and byte-by-byte decoding of the command stream reconstructs every
(type, flags, size, payload) tuple exactly as appended, in order. -/
theorem C2_roundtrip (ops : List Op)
    (h : totalCmds ops ≤ LOGGY_OS_LOG_ENCODER_MAX_COMMANDS) :
    cntByte (runOps ops) = totalCmds ops ∧
    decodeStream (runOps ops) = some (expectedCmds ops) :=
  run_reconstruct ops
    (by simp only [LOGGY_OS_LOG_ENCODER_MAX_COMMANDS] at h; omega)

/-- C2 witness: one int32 append with value 42 round-trips. -/
theorem C2_roundtrip_witness :
    cntByte (runOps [Op.i32 42]) = totalCmds [Op.i32 42] ∧
    decodeStream (runOps [Op.i32 42]) = some (expectedCmds [Op.i32 42]) :=
  C2_roundtrip [Op.i32 42] (by decide)

set_option maxRecDepth 200000 in
/-- C3 counterexample: on the empty encoder, a rejected oversized append is not
a complete no-op: the lazy header initialisation has already run, so the length
becomes 2 (the header bytes) instead of staying 0, even though no command is
appended. -/
theorem C3_counterexample :
    LOGGY_OS_LOG_ENCODER_BUF_SIZE - zeroEncoder.ob_len
        < 2 + (List.replicate 865 (0 : Nat)).length ∧
    encode zeroEncoder OSLF_CMD_TYPE_SCALAR (List.replicate 865 0) ≠ zeroEncoder ∧
    (encode zeroEncoder OSLF_CMD_TYPE_SCALAR (List.replicate 865 0)).ob_len = 2 ∧
    cntByte (encode zeroEncoder OSLF_CMD_TYPE_SCALAR (List.replicate 865 0)) = 0 := by
  refine ⟨by decide, ?_, by decide, by decide⟩
  intro h
  have := congrArg Encoder.ob_len h
  revert this
  decide

/-- C3 amended: on an encoder whose header is already initialised
(`length != 0`), an append whose `2 + size` exceeds the remaining capacity
`BUF_SIZE - length` leaves the encoder state completely unchanged (and no
error is surfaced: `encode` has no error channel at all).  On the empty
encoder the rejected append additionally initialises the header, as the
counterexample shows. -/
theorem C3_amended (e : Encoder) (t : Nat) (d : List Nat)
    (hwf : e.ob_len ≤ LOGGY_OS_LOG_ENCODER_BUF_SIZE)
    (h0 : e.ob_len ≠ 0)
    (hcap : LOGGY_OS_LOG_ENCODER_BUF_SIZE - e.ob_len < 2 + d.length) :
    encode e t d = e := by
  rw [encode, if_neg h0, encodeBody, if_pos (Or.inr hcap)]

/-- C3 amended witness: a nearly full encoder rejects an 8-byte scalar append
without any state change. -/
theorem C3_amended_witness :
    encode ⟨List.replicate 866 7, 860⟩ OSLF_CMD_TYPE_SCALAR (toLE 8 5)
      = ⟨List.replicate 866 7, 860⟩ :=
  C3_amended _ _ _ (by decide) (by decide) (by decide)

/-- C4: the header is written only on the first successful append, at the
public interface: an encoder that receives no append keeps length 0; the
length is 0 exactly when no append was ever attempted (from the zeroed
encoder a first public append never fails, so a history in which every
attempt was rejected is the empty history); and after any nonempty history
the length is at least `sizeof(header) = 2` forever and at least one command
was accepted. -/
theorem C4_lazy_header (ops : List Op) :
    ((runOps ops).ob_len = 0 ↔ ops = []) ∧
    (ops ≠ [] → 2 ≤ (runOps ops).ob_len ∧ 1 ≤ cntByte (runOps ops)) := by
  cases ops with
  | nil => exact ⟨⟨fun _ => rfl, fun _ => rfl⟩, fun hne => absurd rfl hne⟩
  | cons op ops' =>
    rw [run_corr]
    obtain ⟨hI1, hI2⟩ := run_Inv (op :: ops')
    have hlen1 : 1 ≤ (specRun (op :: ops')).length := by
      rw [specRun, List.foldl_cons]
      exact Nat.le_trans (specApplyOp_nil_one op) (foldl_len_mono ops' _)
    constructor
    · constructor
      · intro h
        exact absurd h (by show ¬(2 + streamLen _ = 0); omega)
      · intro h
        simp at h
    · intro _
      refine ⟨by show 2 ≤ 2 + streamLen _; omega, ?_⟩
      rw [cntByte_mkState, Nat.mod_eq_of_lt (by omega)]
      exact hlen1

/-- C4 witness: a single int32 append initialises the header. -/
theorem C4_lazy_header_witness :
    ((runOps [Op.i32 5]).ob_len = 0 ↔ [Op.i32 5] = ([] : List Op)) ∧
    2 ≤ (runOps [Op.i32 5]).ob_len ∧ 1 ≤ cntByte (runOps [Op.i32 5]) :=
  ⟨(C4_lazy_header [Op.i32 5]).1, (C4_lazy_header [Op.i32 5]).2 (by decide)⟩

set_option maxRecDepth 200000 in
/-- C5 counterexample: `appendObject` does not set `HAS_NON_SCALAR` on every
buffer: on a reachable encoder whose command count is already 49 the object
append is rejected and the header flags byte stays 0. -/
theorem C5_counterexample :
    cntByte (runOps ops49) = 49 ∧
    flagsByte (loggy_os_log_encoder_add_object (runOps ops49) 7) = 0 := by
  refine ⟨by decide, ?_⟩
  have h : loggy_os_log_encoder_add_object (runOps ops49) 7
      = applyOp (runOps ops49) (Op.obj 7) := rfl
  rw [h, show ops49 = Op.i32 0 :: List.replicate 48 (Op.i32 0) from rfl, run_corr,
    applyOp_mkState _ _ (run_Inv (Op.i32 0 :: List.replicate 48 (Op.i32 0))),
    specApplyOp_reject _ _ (by decide), flagsByte_mkState]
  decide

/-- C5 amended: `appendObject` sets `HAS_NON_SCALAR` in the header flags
whenever the append is accepted — on an empty encoder the flags byte becomes
exactly `HAS_NON_SCALAR`, and on an initialised encoder with room and a
command count within the limit the flag is ORed into the existing flags —
while no sequence of non-object appends ever sets that bit. -/
theorem C5_amended :
    (∀ (e : Encoder) (ptr : Nat), e.ob_len = 0 →
      flagsByte (loggy_os_log_encoder_add_object e ptr) = OSLF_HDR_FLAG_HAS_NON_SCALAR) ∧
    (∀ (e : Encoder) (ptr : Nat),
      e.ob_b.length = LOGGY_OS_LOG_ENCODER_BUF_SIZE →
      e.ob_len ≠ 0 →
      cntByte e ≤ LOGGY_OS_LOG_ENCODER_MAX_COMMANDS →
      2 + (toLE 8 ptr).length ≤ LOGGY_OS_LOG_ENCODER_BUF_SIZE - e.ob_len →
      flagsByte (loggy_os_log_encoder_add_object e ptr)
        = flagsByte e ||| OSLF_HDR_FLAG_HAS_NON_SCALAR) ∧
    (∀ ops : List Op, (∀ op ∈ ops, op.isObj = false) →
      flagsByte (runOps ops) &&& OSLF_HDR_FLAG_HAS_NON_SCALAR = 0) := by
  refine ⟨?_, ?_, ?_⟩
  · intro e ptr h0
    rw [loggy_os_log_encoder_add_object, encode, if_pos h0]
    have hrw : (⟨splice e.ob_b 0 [0, 0], 2⟩ : Encoder)
        = ⟨0 :: 0 :: e.ob_b.drop 2, 2⟩ := rfl
    rw [hrw]
    rw [encodeBody_object_flags ⟨0 :: 0 :: e.ob_b.drop 2, 2⟩ (toLE 8 ptr)
      (by show (0 : Nat) ≤ LOGGY_OS_LOG_ENCODER_MAX_COMMANDS; decide)
      (by show 2 + (toLE 8 ptr).length ≤ LOGGY_OS_LOG_ENCODER_BUF_SIZE - 2
          simp [toLE_length]
          decide)
      (by show (1 : Nat) ≤ 2; decide) (by simp) (by simp [toLE_length])]
    show (0 : Nat) ||| 2 = 2
    decide
  · intro e ptr hb h0 hcnt hcap
    rw [loggy_os_log_encoder_add_object, encode, if_neg h0]
    exact encodeBody_object_flags e (toLE 8 ptr) hcnt hcap
      (Nat.one_le_iff_ne_zero.2 h0) (by rw [hb]; decide) (by simp [toLE_length])
  · intro ops hops
    cases ops with
    | nil => decide
    | cons op ops' =>
      rw [run_corr, flagsByte_mkState,
        hdrFlagsByte_of_no_obj (specRun (op :: ops'))
          (foldl_no_obj (op :: ops') [] hops (by simp))]
      decide

set_option maxRecDepth 20000 in
/-- C5 amended witness: an accepted object append on a fresh header sets the
flag; a run of one int32 and one double leaves the flag clear. -/
theorem C5_amended_witness :
    flagsByte (loggy_os_log_encoder_add_object ⟨List.replicate 866 0, 2⟩ 7)
      = flagsByte (⟨List.replicate 866 0, 2⟩ : Encoder) ||| OSLF_HDR_FLAG_HAS_NON_SCALAR ∧
    flagsByte (loggy_os_log_encoder_add_object zeroEncoder 7) = OSLF_HDR_FLAG_HAS_NON_SCALAR ∧
    flagsByte (runOps [Op.i32 1, Op.dbl 2 3]) &&& OSLF_HDR_FLAG_HAS_NON_SCALAR = 0 :=
  ⟨C5_amended.2.1 ⟨List.replicate 866 0, 2⟩ 7 (by decide) (by decide) (by decide) (by decide),
   C5_amended.1 zeroEncoder 7 (by decide),
   C5_amended.2.2 [Op.i32 1, Op.dbl 2 3] (by decide)⟩

/-- C6: `loggy_os_log_encoder_add_double` appends exactly two SCALAR commands
in order — first a size-4 command carrying the bytes of the precision, then a
size-8 command carrying the bit pattern of the value — whenever the run has
room for both (at most 46 commands already emitted). -/
theorem C6_add_double (ops : List Op) (vbits prec : Nat)
    (h : totalCmds ops ≤ 46) :
    cntByte (runOps (ops ++ [Op.dbl vbits prec])) = totalCmds ops + 2 ∧
    decodeStream (runOps (ops ++ [Op.dbl vbits prec]))
      = some (expectedCmds ops ++
          [⟨OSLF_CMD_TYPE_SCALAR, 0, toLE 4 prec⟩,
           ⟨OSLF_CMD_TYPE_SCALAR, 0, toLE 8 vbits⟩]) := by
  have htot : totalCmds (ops ++ [Op.dbl vbits prec]) = totalCmds ops + 2 := by
    rw [totalCmds, expectedCmds_append]
    simp [totalCmds, opCmds]
  have hmain := run_reconstruct (ops ++ [Op.dbl vbits prec]) (by omega)
  rw [htot, expectedCmds_append] at hmain
  simpa [opCmds] using hmain

/-- C6 witness: encoding the double 3.14 (bit pattern 0x40091EB851EB851F) with
precision 2 on a fresh encoder yields exactly two SCALAR commands, first the
4-byte precision 2, then the 8-byte bit pattern. -/
theorem C6_add_double_witness :
    cntByte (runOps ([] ++ [Op.dbl 0x40091EB851EB851F 2])) = totalCmds [] + 2 ∧
    decodeStream (runOps ([] ++ [Op.dbl 0x40091EB851EB851F 2]))
      = some (expectedCmds [] ++
          [⟨OSLF_CMD_TYPE_SCALAR, 0, toLE 4 2⟩,
           ⟨OSLF_CMD_TYPE_SCALAR, 0, toLE 8 0x40091EB851EB851F⟩]) :=
  C6_add_double [] 0x40091EB851EB851F 2 (by decide)

/-- C7: once a blob is marked `TRUNCATED`, every subsequent
`os_trace_blob_add`, with any pointer and any size, returns 0 and leaves every
field of the blob (bytes, length, size, max size, flags, binary mode)
unchanged — truncation is sticky for the blob's lifetime. -/
theorem C7_truncated_sticky (b : Blob) (ds : List (List Nat))
    (h : b.ob_flags &&& OS_TRACE_BLOB_TRUNCATED ≠ 0) :
    runAdds b ds = (ds.map fun _ => 0, b) := by
  induction ds with
  | nil => rfl
  | cons d ds ih =>
    have hstep : os_trace_blob_add b d = (0, b) := by
      rw [os_trace_blob_add, if_pos h]
    simp only [runAdds, hstep, ih, List.map_cons]

/-- C7 witness: a truncated blob ignores two further appends. -/
theorem C7_truncated_sticky_witness :
    runAdds ⟨[9, 9, 9, 9], 2, 4, 8, 2, true⟩ [[1, 2, 3], [4]]
      = ([0, 0], ⟨[9, 9, 9, 9], 2, 4, 8, 2, true⟩) :=
  C7_truncated_sticky ⟨[9, 9, 9, 9], 2, 4, 8, 2, true⟩ [[1, 2, 3], [4]] (by decide)

/-- C8: for every sequence of public appends from the zeroed encoder the
cursor never exceeds `LOGGY_OS_LOG_ENCODER_BUF_SIZE`, and the buffer keeps its
exact length of 866 bytes — `splice` models `memcpy` so that any write past
the end would lengthen the list, hence every byte written by `encode` lands
inside `ob_b` and the overflow branch is never taken. -/
theorem C8_bounds (ops : List Op) :
    (runOps ops).ob_len ≤ LOGGY_OS_LOG_ENCODER_BUF_SIZE ∧
    (runOps ops).ob_b.length = LOGGY_OS_LOG_ENCODER_BUF_SIZE := by
  cases ops with
  | nil =>
    constructor
    · exact Nat.zero_le _
    · simp [runOps, zeroEncoder]
  | cons op ops' =>
    rw [run_corr]
    obtain ⟨hI1, hI2⟩ := run_Inv (op :: ops')
    constructor
    · show 2 + streamLen _ ≤ _
      simp only [LOGGY_OS_LOG_ENCODER_BUF_SIZE, LOGGY_OS_LOG_ENCODER_MAX_COMMANDS]
      omega
    · exact mkState_buf_length _ hI2

set_option maxRecDepth 200000 in
/-- C9: there is a reachable encoder state — 48 commands already appended —
in which `loggy_os_log_encoder_add_double` appends the 4-byte precision
SCALAR command (the 49th command, accepted because the guard only rejects
counts strictly above 48) but silently drops the 8-byte value command,
leaving an unpaired precision command at the end of the stream. -/
theorem C9_unpaired_precision :
    cntByte (runOps ops48) = LOGGY_OS_LOG_ENCODER_MAX_COMMANDS ∧
    cntByte (loggy_os_log_encoder_add_double (runOps ops48) 0x3FF8000000000000 3)
      = LOGGY_OS_LOG_ENCODER_MAX_COMMANDS + 1 ∧
    decodeStream (loggy_os_log_encoder_add_double (runOps ops48) 0x3FF8000000000000 3)
      = some (expectedCmds ops48 ++ [⟨OSLF_CMD_TYPE_SCALAR, 0, toLE 4 3⟩]) := by
  refine ⟨by decide, by decide, by decide⟩

/-- C10: no encoder operation ever emits a command with a nonzero flags
nibble (neither PRIVATE nor PUBLIC), and the header's `HAS_PRIVATE` bit is
never set: after any run, decoding the stream finds only commands with
flags 0, and the flags byte has bit 0 clear. -/
theorem C10_no_private (ops : List Op) :
    flagsByte (runOps ops) &&& OSLF_HDR_FLAG_HAS_PRIVATE = 0 ∧
    ((decodeStream (runOps ops)).getD []).all (fun c => c.flags == 0) = true := by
  cases ops with
  | nil => exact ⟨by decide, by decide⟩
  | cons op ops' =>
    rw [run_corr]
    constructor
    · rw [flagsByte_mkState]
      rcases hdrFlagsByte_cases (specRun (op :: ops')) with h | h <;> rw [h] <;> decide
    · rw [decodeStream_mkState _
        (fun c hc => producedCmd_good c (specRun_produced _ c hc))]
      rw [show (some (specRun (op :: ops'))).getD [] = specRun (op :: ops') from rfl]
      rw [List.all_eq_true]
      intro c hc
      have hf := (specRun_produced _ c hc).1
      simp [hf]
